import Mathlib

/-!
Verification development for the incremental, resource-constrained task
scheduler implemented in `project_share.py`.

The Python program is shallowly embedded as follows.

* `Task` mirrors the `Task` class.  The data model (spec §3) requires
  `duration`, `workers_required` and `priority` to be positive integers and
  `deadline` an optional integer time bound, so they are embedded as `Nat` /
  `Option Nat`.
* The scheduler object `IncrementalScheduler` becomes the structure `Sched`;
  every method becomes a state-passing function.
* Python's `dict` (which preserves insertion order) is embedded as an
  association list; assignment `d[k] = v` is `alSet`-style update-or-append,
  `del d[k]` removes the entry with that key.
* The `heapq` min-heap of `(end_time, task_id)` pairs is embedded as a list
  kept sorted in the lexicographic order that `heapq` uses to compare the
  tuples; `heappush` is ordered insertion, the pop-while-due loop is
  `takeWhile` / `dropWhile`.
* `step` can raise in Python: a `ValueError` from
  `max(range(available_workers + 1), ...)` over an empty range when the
  available-worker count is negative, and a `KeyError` from
  `self.tasks[tid]` in the deadline check when a just-completed task was
  removed from the registry.  These exceptional exits are embedded in the
  `StepResult` type; the returned state holds exactly the mutations the
  Python object has undergone when the exception is raised.
* Python stores the *object* of an in-progress task in `self.in_progress`,
  aliased with the registry entry, so `modify_task_prompt` mutates the task
  seen by the capacity accounting.  The embedding stores the task value and
  lets the modify operation update the registry entry and the in-progress
  entry under the same id, which coincides with the aliasing semantics.
-/

namespace ProjectShare

structure Task where
  id : String
  duration : Nat
  dependencies : List String
  workers_required : Nat
  priority : Nat
  deadline : Option Nat
deriving DecidableEq

def defaultTask : Task := ⟨"", 0, [], 0, 0, none⟩

instance : Inhabited Task := ⟨defaultTask⟩

/-! ### The knapsack packer (`IncrementalScheduler.knapsack`, lines 41-55)

The Python DP keeps two arrays indexed by `0 .. available_workers`:
`dp[w]` (max priority achievable with `≤ w` workers) and `track[w]` (the set
of selected candidate indices achieving it).  The arrays are embedded as
functions on `Nat`; the inner loop `for w in range(available_workers,
task.workers_required - 1, -1)` only reads entries at `w - workers_required`,
which the downward iteration has not yet touched for the current item, so one
item's pass is the pointwise update `procItem`: an index `w` is updated
exactly when `workers_required ≤ w ≤ available_workers` and the strict
improvement test `dp[w - workers_required] + priority > dp[w]` fires. -/

abbrev KState := (Nat → Nat) × (Nat → Finset Nat)

def procItem (avail wt p i : Nat) (st : KState) : KState :=
  (fun w => if wt ≤ w ∧ w ≤ avail ∧ st.1 w < st.1 (w - wt) + p
            then st.1 (w - wt) + p else st.1 w,
   fun w => if wt ≤ w ∧ w ≤ avail ∧ st.1 w < st.1 (w - wt) + p
            then insert i (st.2 (w - wt)) else st.2 w)

/-- `enumerate(tasks)` of the Python loop. -/
def enumerateFrom (i : Nat) : List Task → List (Nat × Task)
  | [] => []
  | t :: r => (i, t) :: enumerateFrom (i + 1) r

def knapInit : KState := (fun _ => 0, fun _ => ∅)

def knapLoop (avail : Nat) (st : KState) : List (Nat × Task) → KState
  | [] => st
  | (i, t) :: rest => knapLoop avail (procItem avail t.workers_required t.priority i st) rest

def knapDP (ts : List Task) (avail : Nat) : KState :=
  knapLoop avail knapInit (enumerateFrom 0 ts)

/-- `max(range(available_workers + 1), key=lambda i: dp[i])`: Python's `max`
returns the first maximal element, i.e. replaces the running best only on a
strict improvement. -/
def argmaxFirst (f : Nat → Nat) (n : Nat) : Nat :=
  (List.range (n + 1)).foldl (fun b w => if f b < f w then w else b) 0

def knapsackIdx (ts : List Task) (avail : Nat) : Finset Nat :=
  (knapDP ts avail).2 (argmaxFirst (knapDP ts avail).1 avail)

/-- `return [tasks[i] for i in track[best_w]]`.  The Python iteration order
over the set of indices is unspecified; the embedding lists them in
ascending order (every tracked index is below `tasks.length`, see
`knapsackIdx_subset_range`). -/
def knapsackSel (ts : List Task) (avail : Nat) : List Task :=
  (((List.range ts.length).filter (fun i => decide (i ∈ knapsackIdx ts avail))).map
    (fun i => ts.getD i defaultTask))

/-! ### Invariant of the knapsack dynamic program

`KInv wtf prf avail done st` says: for every capacity index `w ≤ avail`, the
tracked index set draws from the processed indices `done`, its weight fits in
`w`, its value is exactly `dp[w]`, and `dp[w]` dominates the value of every
subset of `done` whose weight fits in `w`. -/

def KInv (wtf prf : Nat → Nat) (avail : Nat) (done : Finset Nat) (st : KState) : Prop :=
  ∀ w, w ≤ avail →
    st.2 w ⊆ done ∧
    (st.2 w).sum wtf ≤ w ∧
    (st.2 w).sum prf = st.1 w ∧
    ∀ S : Finset Nat, S ⊆ done → S.sum wtf ≤ w → S.sum prf ≤ st.1 w

/-- Index-to-weight and index-to-value views of a candidate list. -/
def wOf (ts : List Task) (i : Nat) : Nat := (ts.getD i defaultTask).workers_required

def pOf (ts : List Task) (i : Nat) : Nat := (ts.getD i defaultTask).priority

/-- The capacity index at which the Python reconstruction reads the DP
arrays. -/
def bestW (ts : List Task) (avail : Nat) : Nat :=
  argmaxFirst (knapDP ts avail).1 avail

/-! ### Scheduler state (`IncrementalScheduler.__init__`, lines 22-30)

Python dictionaries preserve insertion order and are embedded as
association lists; the `completed` set of ids is a `Finset`.  The `events`
min-heap is a list kept sorted in the lexicographic `(end_time, task_id)`
order `heapq` compares the tuples with. -/

structure Sched where
  tasks : List (String × Task)
  total_workers : Nat
  time : Nat
  completed : Finset String
  in_progress : List (String × Nat × Task)
  events : List (Nat × String)
  schedule : List (Nat × List String × List String)
  task_end_times : List (String × Nat)
deriving DecidableEq

/-- Dict assignment `d[k] = v`: update in place (keeping the insertion
position) when the key is present, append otherwise. -/
def alSet {β : Type} (k : String) (v : β) : List (String × β) → List (String × β)
  | [] => [(k, v)]
  | (k', v') :: rest => if k' = k then (k, v) :: rest else (k', v') :: alSet k v rest

/-- Python's `<` on strings: lexicographic comparison of the code-point
sequences (ties between equal finish times are broken this way by the
tuple comparison `heapq` performs). -/
def strLtChars : List Char → List Char → Bool
  | [], [] => false
  | [], _ :: _ => true
  | _ :: _, [] => false
  | a :: as, b :: bs =>
    if a.toNat < b.toNat then true
    else if b.toNat < a.toNat then false
    else strLtChars as bs

def strLt (a b : String) : Bool := strLtChars a.data b.data

/-- `heapq.heappush(self.events, (finish_time, task_id))`: ordered insertion
in the lexicographic tuple order. -/
def insEvent (e : Nat × String) : List (Nat × String) → List (Nat × String)
  | [] => [e]
  | f :: rest =>
    if e.1 < f.1 ∨ (e.1 = f.1 ∧ strLt e.2 f.2 = true) then e :: f :: rest
    else f :: insEvent e rest

/-- `IncrementalScheduler.get_ready_tasks` (lines 32-39), keeping the
registry entries: a task qualifies iff its key is not completed, not in
progress, and all its dependencies are completed. -/
def getReadyPairs (s : Sched) : List (String × Task) :=
  s.tasks.filter (fun kt =>
    decide (kt.1 ∉ s.completed) &&
    decide (kt.1 ∉ s.in_progress.map Prod.fst) &&
    kt.2.dependencies.all (fun d => decide (d ∈ s.completed)))

def getReadyTasks (s : Sched) : List Task :=
  (getReadyPairs s).map Prod.snd

/-- `sum(task.workers_required for _, task in self.in_progress.values())`
(line 73). -/
def usedCapacity (s : Sched) : Nat :=
  (s.in_progress.map (fun e => e.2.2.workers_required)).sum

/-! ### One call to `IncrementalScheduler.step` (lines 57-108) -/

/-- The timeline entries due at the current time: the while loop pops the
heap minimum while `events[0][0] <= self.time`. -/
def dueEvents (s : Sched) : List (Nat × String) :=
  s.events.takeWhile (fun e => decide (e.1 ≤ s.time))

def justCompleted (s : Sched) : List String :=
  (dueEvents s).map Prod.snd

/-- Effect of the drain loop (lines 65-70): each due event's task id joins
`completed`, leaves `in_progress` (the engine keeps one live event per
in-progress task, so the `del` always finds its key), and has its end time
recorded. -/
def drainState (s : Sched) : Sched :=
  { s with
      events := s.events.dropWhile (fun e => decide (e.1 ≤ s.time)),
      completed := s.completed ∪ (justCompleted s).toFinset,
      in_progress := s.in_progress.filter (fun e => decide (e.1 ∉ justCompleted s)),
      task_end_times := (dueEvents s).foldl (fun m e => alSet e.2 e.1 m) s.task_end_times }

/-- The selection the step commits (lines 77-78), computed on the drained
state.  Meaningful when `usedCapacity ≤ total_workers`; otherwise the Python
call crashes before reconstructing a selection (see `stepFn`). -/
def stepSelected (s : Sched) : List Task :=
  knapsackSel (getReadyTasks (drainState s))
    ((drainState s).total_workers - usedCapacity (drainState s))

/-- Committing one selected task (lines 83-87): reserve it in `in_progress`
under `task.id`, push its finish event. -/
def commitOne (time : Nat) (s : Sched) (t : Task) : Sched :=
  { s with
      in_progress := alSet t.id (time + t.duration, t) s.in_progress,
      events := insEvent (time + t.duration, t.id) s.events }

def commitAll (time : Nat) (s : Sched) (sel : List Task) : Sched :=
  sel.foldl (commitOne time) s

/-- Outcome of a `step()` call.  `ok` is Python's `return True`, `terminal`
is `return False`; `valueError` is the `ValueError` raised by
`max(range(available_workers + 1), ...)` when the available-worker count is
negative, and `keyError tid` is the `KeyError` raised by `self.tasks[tid]`
in the deadline check (line 102). -/
inductive StepResult where
  | ok : StepResult
  | terminal : StepResult
  | valueError : StepResult
  | keyError : String → StepResult
deriving DecidableEq

/-- State after drain, capacity computation, selection, commits (lines
62-90) and the schedule-log append, but before the deadline check and the
time advance.  Neither draining nor committing touches the registry, so the
deadline check below consults `s.tasks`. -/
def stepCommitted (s : Sched) : Sched :=
  { commitAll s.time (drainState s) (stepSelected s) with
      schedule := (commitAll s.time (drainState s) (stepSelected s)).schedule ++
        [(s.time, (stepSelected s).map Task.id, justCompleted s)] }

/-- `IncrementalScheduler.step`: returns the scheduler state after the call
together with the outcome.  On an exceptional outcome the returned state
holds exactly the mutations the Python object has undergone when the
exception propagates (on `keyError` in particular the time advance of line
107 has not happened). -/
def stepFn (s : Sched) : Sched × StepResult :=
  if s.completed.card = s.tasks.length then (s, StepResult.terminal)
  else if (drainState s).total_workers < usedCapacity (drainState s) then
    (drainState s, StepResult.valueError)
  else
    match (justCompleted s).find? (fun tid => decide (tid ∉ s.tasks.map Prod.fst)) with
    | some tid => (stepCommitted s, StepResult.keyError tid)
    | none => ({ stepCommitted s with time := s.time + 1 }, StepResult.ok)

/-! ### Registry mutations (lines 137-181)

The interactive prompts collect the field values; their effect on the
scheduler state is embedded here.  `modify` applies each provided field and
keeps the prior value otherwise; since Python mutates the task *object*,
which an in-progress entry under the same id aliases, the in-progress copy
receives the same field updates. -/

def updTask (t : Task) (d w p : Option Nat) (dl : Option Nat)
    (deps : Option (List String)) : Task :=
  { t with
      duration := d.getD t.duration,
      workers_required := w.getD t.workers_required,
      priority := p.getD t.priority,
      deadline := match dl with | some x => some x | none => t.deadline,
      dependencies := deps.getD t.dependencies }

inductive Op where
  | step : Op
  | add : Task → Op
  | modify : String → Option Nat → Option Nat → Option Nat → Option Nat →
      Option (List String) → Op
  | del : String → Op
deriving DecidableEq

def applyOp (s : Sched) : Op → Sched
  | Op.step => (stepFn s).1
  | Op.add t => { s with tasks := alSet t.id t s.tasks }
  | Op.modify id d w p dl deps =>
    if (s.tasks.map Prod.fst).contains id then
      { s with
          tasks := s.tasks.map (fun kt =>
            if kt.1 = id then (kt.1, updTask kt.2 d w p dl deps) else kt),
          in_progress := s.in_progress.map (fun e =>
            if e.1 = id then (e.1, e.2.1, updTask e.2.2 d w p dl deps) else e) }
    else s
  | Op.del id => { s with tasks := s.tasks.filter (fun kt => decide (kt.1 ≠ id)) }

/-- Constructing the scheduler (`IncrementalScheduler(tasks, total_workers)`)
from an initial task list; per the data model (spec §3) the registry key of
a task is its id. -/
def initSched (ts : List Task) (tw : Nat) : Sched :=
  { tasks := ts.map (fun t => (t.id, t)),
    total_workers := tw,
    time := 0,
    completed := ∅,
    in_progress := [],
    events := [],
    schedule := [],
    task_end_times := [] }

def run (s : Sched) (ops : List Op) : Sched :=
  ops.foldl applyOp s

/-- Deadline classification (lines 103-105 and 132-134): for a recorded end
time and a task's deadline, `"Met"` if `end_time <= deadline` else
`"Missed"`; no classification when the deadline is unset. -/
def deadlineStatus (endTime : Nat) : Option Nat → Option String
  | some d => some (if endTime ≤ d then "Met" else "Missed")
  | none => none

/-! ### Concrete scenario states used by the claims -/

/-- Packing-correctness scenario (spec §8): X(workers 2, priority 5). -/
def taskX : Task := ⟨"X", 1, [], 2, 5, none⟩

/-- Packing-correctness scenario (spec §8): Y(workers 2, priority 3). -/
def taskY : Task := ⟨"Y", 1, [], 2, 3, none⟩

/-- A scheduler at time 2 holding one unstarted task of duration 3 and
deadline 4. -/
def deadlineStart : Sched :=
  { tasks := [("A", ⟨"A", 3, [], 1, 1, some 4⟩)],
    total_workers := 1,
    time := 2,
    completed := ∅,
    in_progress := [],
    events := [],
    schedule := [],
    task_end_times := [] }

/-- After one step both A (1 worker) and B (2 workers) are in progress under
capacity 3, then A's `workers_required` is modified to 3 while A is
in progress. -/
def overCommitState : Sched :=
  run (initSched [⟨"A", 5, [], 1, 1, none⟩, ⟨"B", 5, [], 2, 1, none⟩] 3)
    [Op.step, Op.modify "A" none (some 3) none none none]

/-- A finished at time 1 and was then removed from the registry while B
(dependent on a task id that never exists) is still unfinished. -/
def removedDoneState : Sched :=
  run (initSched [⟨"A", 1, [], 1, 1, none⟩, ⟨"B", 1, ["zz"], 1, 1, none⟩] 1)
    [Op.step, Op.step, Op.del "A"]

/-- A was started at time 0 (finish event at time 2) and removed from the
registry at time 1; the next step drains A's finish event at time 2. -/
def removedInProgressState : Sched :=
  run (initSched [⟨"A", 2, [], 1, 1, none⟩, ⟨"B", 1, ["zz"], 1, 1, none⟩] 1)
    [Op.step, Op.del "A", Op.step]

/-- A single in-progress task A with 1 worker under capacity 3. -/
def inflightState : Sched :=
  run (initSched [⟨"A", 5, [], 1, 1, none⟩] 3) [Op.step]

/-- A completed, was removed from the registry, and a fresh task was
re-added under the same id. -/
def readdState : Sched :=
  run (initSched [⟨"A", 1, [], 1, 1, none⟩] 1)
    [Op.step, Op.step, Op.del "A", Op.add ⟨"A", 7, [], 1, 1, none⟩]

/-! ### Trace invariant: no task is ever started twice -/

def ipKeys (s : Sched) : List String := s.in_progress.map Prod.fst

/-- All ids ever recorded as started, in log order. -/
def startedLog (s : Sched) : List String :=
  (s.schedule.map (fun r => r.2.1)).flatten

/-- Invariant of every reachable scheduler state: registry keys are unique
and coincide with the stored task's id, the started ids of the log are
pairwise distinct, and every previously started id is still accounted for
as completed or in progress. -/
def SchedInv (s : Sched) : Prop :=
  (s.tasks.map Prod.fst).Nodup ∧
  (∀ kt ∈ s.tasks, (Prod.snd kt).id = kt.1) ∧
  (startedLog s).Nodup ∧
  (∀ id ∈ startedLog s, id ∈ s.completed ∨ id ∈ ipKeys s)

theorem kinv_init (wtf prf : Nat → Nat) (avail : Nat) :
    KInv wtf prf avail ∅ knapInit := by
  intro w _
  refine ⟨Finset.Subset.refl _, by simp [knapInit], by simp [knapInit], ?_⟩
  intro S hS _
  have : S = ∅ := Finset.subset_empty.mp hS
  simp [this, knapInit]

theorem kinv_procItem {wtf prf : Nat → Nat} {avail : Nat} {done : Finset Nat}
    {st : KState} {i wt p : Nat}
    (hI : KInv wtf prf avail done st) (hi : i ∉ done)
    (hwt : wtf i = wt) (hp : prf i = p) :
    KInv wtf prf avail (insert i done) (procItem avail wt p i st) := by
  intro w hw
  have hw' : w - wt ≤ avail := le_trans (Nat.sub_le _ _) hw
  obtain ⟨ha, hb, hc, hd⟩ := hI w hw
  obtain ⟨ha', hb', hc', hd'⟩ := hI (w - wt) hw'
  by_cases hcond : wt ≤ w ∧ w ≤ avail ∧ st.1 w < st.1 (w - wt) + p
  · have hwtw : wt ≤ w := hcond.1
    have himp : st.1 w < st.1 (w - wt) + p := hcond.2.2
    have hiT : i ∉ st.2 (w - wt) := fun hmem => hi (ha' hmem)
    constructor
    · simp only [procItem, if_pos hcond]
      exact Finset.insert_subset_insert i ha'
    have hb'' : (∑ x ∈ st.2 (w - wt), wtf x) ≤ w - wt := hb'
    have hc'' : (∑ x ∈ st.2 (w - wt), prf x) = st.1 (w - wt) := hc'
    refine ⟨?_, ?_, ?_⟩
    · simp only [procItem, if_pos hcond, Finset.sum_insert hiT, hwt]
      omega
    · simp only [procItem, if_pos hcond, Finset.sum_insert hiT, hp]
      omega
    · intro S hS hSw
      simp only [procItem, if_pos hcond]
      by_cases hiS : i ∈ S
      · have hSe : S.erase i ⊆ done := by
          intro x hx
          have hxi : x ≠ i := Finset.ne_of_mem_erase hx
          have := hS (Finset.mem_of_mem_erase hx)
          exact (Finset.mem_insert.mp this).resolve_left hxi
        have hwle : wt ≤ S.sum wtf := by
          rw [← hwt]
          exact Finset.single_le_sum (fun _ _ => Nat.zero_le _) hiS
        have hsplitW : (S.erase i).sum wtf + wt = S.sum wtf := by
          rw [← hwt]; exact Finset.sum_erase_add S wtf hiS
        have hsplitP : (S.erase i).sum prf + p = S.sum prf := by
          rw [← hp]; exact Finset.sum_erase_add S prf hiS
        have hWe : (S.erase i).sum wtf ≤ w - wt := by omega
        have := hd' (S.erase i) hSe hWe
        omega
      · have hSd : S ⊆ done := by
          intro x hx
          exact (Finset.mem_insert.mp (hS hx)).resolve_left (fun h => hiS (h ▸ hx))
        have := hd S hSd hSw
        omega
  · constructor
    · simp only [procItem, if_neg hcond]
      exact ha.trans (Finset.subset_insert i done)
    refine ⟨?_, ?_, ?_⟩
    · simp only [procItem, if_neg hcond]; exact hb
    · simp only [procItem, if_neg hcond]; exact hc
    · intro S hS hSw
      simp only [procItem, if_neg hcond]
      by_cases hiS : i ∈ S
      · have hwle : wt ≤ S.sum wtf := by
          rw [← hwt]
          exact Finset.single_le_sum (fun _ _ => Nat.zero_le _) hiS
        have hwtw : wt ≤ w := le_trans hwle hSw
        have hnolt : ¬ st.1 w < st.1 (w - wt) + p := fun hlt => hcond ⟨hwtw, hw, hlt⟩
        have hSe : S.erase i ⊆ done := by
          intro x hx
          have hxi : x ≠ i := Finset.ne_of_mem_erase hx
          exact (Finset.mem_insert.mp (hS (Finset.mem_of_mem_erase hx))).resolve_left hxi
        have hsplitW : (S.erase i).sum wtf + wt = S.sum wtf := by
          rw [← hwt]; exact Finset.sum_erase_add S wtf hiS
        have hsplitP : (S.erase i).sum prf + p = S.sum prf := by
          rw [← hp]; exact Finset.sum_erase_add S prf hiS
        have hWe : (S.erase i).sum wtf ≤ w - wt := by omega
        have := hd' (S.erase i) hSe hWe
        omega
      · have hSd : S ⊆ done := by
          intro x hx
          exact (Finset.mem_insert.mp (hS hx)).resolve_left (fun h => hiS (h ▸ hx))
        exact hd S hSd hSw

theorem kinv_loop {wtf prf : Nat → Nat} {avail : Nat} (idx : List (Nat × Task)) :
    ∀ (st : KState) (done : Finset Nat), KInv wtf prf avail done st →
      (∀ q ∈ idx, q.1 ∉ done ∧ wtf q.1 = q.2.workers_required ∧ prf q.1 = q.2.priority) →
      (idx.map Prod.fst).Nodup →
      KInv wtf prf avail (done ∪ (idx.map Prod.fst).toFinset) (knapLoop avail st idx) := by
  induction idx with
  | nil => intro st done hI _ _; simpa using hI
  | cons q rest ih =>
    intro st done hI hq hnd
    obtain ⟨i, t⟩ := q
    have h1 := hq (i, t) (List.mem_cons_self _ _)
    have hstep := kinv_procItem hI h1.1 h1.2.1 h1.2.2
    have hndr : (rest.map Prod.fst).Nodup := (List.nodup_cons.mp hnd).2
    have hir : i ∉ rest.map Prod.fst := (List.nodup_cons.mp hnd).1
    have hrest : ∀ q' ∈ rest, q'.1 ∉ insert i done ∧
        wtf q'.1 = q'.2.workers_required ∧ prf q'.1 = q'.2.priority := by
      intro q' hq'
      have h2 := hq q' (List.mem_cons_of_mem _ hq')
      refine ⟨?_, h2.2.1, h2.2.2⟩
      intro hmem
      rcases Finset.mem_insert.mp hmem with h | h
      · exact hir (h ▸ List.mem_map_of_mem Prod.fst hq')
      · exact h2.1 h
    have := ih (procItem avail t.workers_required t.priority i st) (insert i done)
      hstep hrest hndr
    have hset : insert i done ∪ (rest.map Prod.fst).toFinset =
        done ∪ ((List.map Prod.fst ((i, t) :: rest)).toFinset) := by
      ext a
      simp only [Finset.mem_union, Finset.mem_insert, List.map_cons, List.toFinset_cons,
        List.mem_toFinset]
      tauto
    rw [knapLoop]
    rwa [hset] at this

theorem enumerateFrom_mem {l : List Task} :
    ∀ {i : Nat} {q : Nat × Task}, q ∈ enumerateFrom i l →
      i ≤ q.1 ∧ q.1 < i + l.length ∧ l.getD (q.1 - i) defaultTask = q.2 := by
  induction l with
  | nil => intro i q h; simp [enumerateFrom] at h
  | cons t r ih =>
    intro i q h
    rw [enumerateFrom, List.mem_cons] at h
    rcases h with rfl | h
    · exact ⟨le_refl _, by simp, by simp⟩
    · obtain ⟨h1, h2, h3⟩ := ih h
      refine ⟨by omega, by simp only [List.length_cons]; omega, ?_⟩
      have hq : q.1 - i = (q.1 - (i + 1)) + 1 := by omega
      rw [hq, List.getD_cons_succ]
      exact h3

theorem enumerateFrom_mem_fst {l : List Task} :
    ∀ {i a : Nat}, a ∈ (enumerateFrom i l).map Prod.fst ↔ i ≤ a ∧ a < i + l.length := by
  induction l with
  | nil => intro i a; simp [enumerateFrom]
  | cons t r ih =>
    intro i a
    rw [enumerateFrom, List.map_cons, List.mem_cons, ih]
    simp only [List.length_cons]
    omega

theorem enumerateFrom_fst_nodup {l : List Task} :
    ∀ {i : Nat}, ((enumerateFrom i l).map Prod.fst).Nodup := by
  induction l with
  | nil => intro i; simp [enumerateFrom]
  | cons t r ih =>
    intro i
    rw [enumerateFrom, List.map_cons, List.nodup_cons]
    exact ⟨fun h => by have := enumerateFrom_mem_fst.mp h; omega, ih⟩

theorem knapDP_inv (ts : List Task) (avail : Nat) :
    KInv (wOf ts) (pOf ts) avail (Finset.range ts.length) (knapDP ts avail) := by
  have hcond : ∀ q ∈ enumerateFrom 0 ts, q.1 ∉ (∅ : Finset Nat) ∧
      wOf ts q.1 = q.2.workers_required ∧ pOf ts q.1 = q.2.priority := by
    intro q hq
    obtain ⟨_, _, h3⟩ := enumerateFrom_mem hq
    refine ⟨Finset.not_mem_empty _, ?_, ?_⟩ <;>
      simp only [wOf, pOf, Nat.sub_zero] at h3 ⊢ <;> rw [h3]
  have := @kinv_loop (wOf ts) (pOf ts) avail (enumerateFrom 0 ts) knapInit ∅
    (kinv_init (wOf ts) (pOf ts) avail) hcond enumerateFrom_fst_nodup
  have hset : (∅ : Finset Nat) ∪ ((enumerateFrom 0 ts).map Prod.fst).toFinset =
      Finset.range ts.length := by
    ext a
    simp only [Finset.mem_union, Finset.not_mem_empty, false_or, List.mem_toFinset,
      Finset.mem_range, enumerateFrom_mem_fst]
    omega
  rwa [hset] at this

theorem argmax_foldl_mem (f : Nat → Nat) :
    ∀ (l : List Nat) (b : Nat),
      l.foldl (fun b' w => if f b' < f w then w else b') b = b ∨
      l.foldl (fun b' w => if f b' < f w then w else b') b ∈ l := by
  intro l
  induction l with
  | nil => intro b; exact Or.inl rfl
  | cons a r ih =>
    intro b
    rw [List.foldl_cons]
    rcases ih (if f b < f a then a else b) with h | h
    · rw [h]
      by_cases hfa : f b < f a
      · rw [if_pos hfa]; exact Or.inr (List.mem_cons_self _ _)
      · rw [if_neg hfa]; exact Or.inl rfl
    · exact Or.inr (List.mem_cons_of_mem _ h)

theorem argmax_foldl_init_le (f : Nat → Nat) :
    ∀ (l : List Nat) (b : Nat),
      f b ≤ f (l.foldl (fun b' w => if f b' < f w then w else b') b) := by
  intro l
  induction l with
  | nil => intro b; exact le_refl _
  | cons a r ih =>
    intro b
    rw [List.foldl_cons]
    by_cases hfa : f b < f a
    · rw [if_pos hfa]
      exact le_trans (le_of_lt hfa) (ih a)
    · rw [if_neg hfa]
      exact ih b

theorem argmax_foldl_dominates (f : Nat → Nat) :
    ∀ (l : List Nat) (b : Nat) (w : Nat), w ∈ l →
      f w ≤ f (l.foldl (fun b' w' => if f b' < f w' then w' else b') b) := by
  intro l
  induction l with
  | nil => intro b w h; simp at h
  | cons a r ih =>
    intro b w h
    rw [List.foldl_cons]
    rcases List.mem_cons.mp h with rfl | h
    · by_cases hfa : f b < f w
      · rw [if_pos hfa]; exact argmax_foldl_init_le f r w
      · rw [if_neg hfa]
        exact le_trans (le_of_not_lt hfa) (argmax_foldl_init_le f r b)
    · exact ih _ w h

theorem argmaxFirst_le (f : Nat → Nat) (n : Nat) : argmaxFirst f n ≤ n := by
  rcases argmax_foldl_mem f (List.range (n + 1)) 0 with h | h
  · rw [argmaxFirst, h]; exact Nat.zero_le n
  · have := List.mem_range.mp h
    rw [argmaxFirst]
    omega

theorem le_argmaxFirst (f : Nat → Nat) (n : Nat) {w : Nat} (hw : w ≤ n) :
    f w ≤ f (argmaxFirst f n) :=
  argmax_foldl_dominates f (List.range (n + 1)) 0 w (List.mem_range.mpr (by omega))

theorem knapsackIdx_subset_range (ts : List Task) (avail : Nat) :
    knapsackIdx ts avail ⊆ Finset.range ts.length :=
  (knapDP_inv ts avail (bestW ts avail) (argmaxFirst_le _ _)).1

theorem knapsackIdx_weight_le (ts : List Task) (avail : Nat) :
    (knapsackIdx ts avail).sum (wOf ts) ≤ avail :=
  le_trans (knapDP_inv ts avail (bestW ts avail) (argmaxFirst_le _ _)).2.1
    (argmaxFirst_le _ _)

theorem knapsackIdx_value_eq (ts : List Task) (avail : Nat) :
    (knapsackIdx ts avail).sum (pOf ts) = (knapDP ts avail).1 (bestW ts avail) :=
  (knapDP_inv ts avail (bestW ts avail) (argmaxFirst_le _ _)).2.2.1

theorem dp_bestW_eq_dp_avail (ts : List Task) (avail : Nat) :
    (knapDP ts avail).1 (bestW ts avail) = (knapDP ts avail).1 avail := by
  have h1 : (knapDP ts avail).1 avail ≤ (knapDP ts avail).1 (bestW ts avail) :=
    le_argmaxFirst _ avail (le_refl avail)
  have hinv := knapDP_inv ts avail
  have hb := hinv (bestW ts avail) (argmaxFirst_le _ _)
  have ha := hinv avail (le_refl avail)
  have h2 : (knapDP ts avail).1 (bestW ts avail) ≤ (knapDP ts avail).1 avail := by
    have := ha.2.2.2 (knapsackIdx ts avail) hb.1 (knapsackIdx_weight_le ts avail)
    rw [knapsackIdx_value_eq] at this
    exact this
  exact le_antisymm h2 h1

theorem knapsackIdx_optimal (ts : List Task) (avail : Nat) (S : Finset Nat)
    (hS : S ⊆ Finset.range ts.length) (hw : S.sum (wOf ts) ≤ avail) :
    S.sum (pOf ts) ≤ (knapsackIdx ts avail).sum (pOf ts) := by
  have := (knapDP_inv ts avail avail (le_refl avail)).2.2.2 S hS hw
  rw [knapsackIdx_value_eq, dp_bestW_eq_dp_avail]
  exact this

theorem knapDP_monotone (ts : List Task) (avail : Nat) {w1 w2 : Nat}
    (h12 : w1 ≤ w2) (h2 : w2 ≤ avail) :
    (knapDP ts avail).1 w1 ≤ (knapDP ts avail).1 w2 := by
  have hinv := knapDP_inv ts avail
  have hb1 := hinv w1 (le_trans h12 h2)
  have hb2 := hinv w2 h2
  have := hb2.2.2.2 ((knapDP ts avail).2 w1) hb1.1 (le_trans hb1.2.1 h12)
  rw [hb1.2.2.1] at this
  exact this

/-! ### From the tracked index set to the returned task list -/

theorem sum_filter_range {n : Nat} {F : Finset Nat} (f : Nat → Nat)
    (h : F ⊆ Finset.range n) :
    (((List.range n).filter (fun i => decide (i ∈ F))).map f).sum = F.sum f := by
  have hnd : ((List.range n).filter (fun i => decide (i ∈ F))).Nodup :=
    List.Nodup.filter _ (List.nodup_range n)
  have hset : ((List.range n).filter (fun i => decide (i ∈ F))).toFinset = F := by
    ext a
    simp only [List.mem_toFinset, List.mem_filter, List.mem_range, decide_eq_true_eq]
    exact ⟨fun hx => hx.2, fun hx => ⟨Finset.mem_range.mp (h hx), hx⟩⟩
  calc (((List.range n).filter (fun i => decide (i ∈ F))).map f).sum
      = (((List.range n).filter (fun i => decide (i ∈ F))).toFinset).sum f :=
        (List.sum_toFinset f hnd).symm
    _ = F.sum f := by rw [hset]

theorem knapsackSel_sum (ts : List Task) (avail : Nat) (g : Task → Nat) :
    ((knapsackSel ts avail).map g).sum =
      (knapsackIdx ts avail).sum (fun i => g (ts.getD i defaultTask)) := by
  rw [knapsackSel, List.map_map]
  exact sum_filter_range _ (knapsackIdx_subset_range ts avail)

theorem knapsackSel_mem {ts : List Task} {avail : Nat} {t : Task}
    (ht : t ∈ knapsackSel ts avail) :
    ∃ i, i ∈ knapsackIdx ts avail ∧ i < ts.length ∧ t = ts.getD i defaultTask := by
  rw [knapsackSel] at ht
  obtain ⟨i, hi, rfl⟩ := List.mem_map.mp ht
  have := List.mem_filter.mp hi
  exact ⟨i, of_decide_eq_true this.2, List.mem_range.mp this.1, rfl⟩

/-! ### Helper lemmas about the step stages -/

theorem getReadyPairs_mem {s : Sched} {k : String} {t : Task} :
    (k, t) ∈ getReadyPairs s ↔
      (k, t) ∈ s.tasks ∧ k ∉ s.completed ∧ k ∉ s.in_progress.map Prod.fst ∧
        ∀ d ∈ t.dependencies, d ∈ s.completed := by
  rw [getReadyPairs, List.mem_filter]
  simp only [Bool.and_eq_true, decide_eq_true_eq, List.all_eq_true, decide_eq_true_eq]
  tauto

theorem getReadyTasks_deps {s : Sched} {t : Task} (ht : t ∈ getReadyTasks s) :
    ∀ d ∈ t.dependencies, d ∈ s.completed := by
  obtain ⟨⟨k, t'⟩, hkt, rfl⟩ := List.mem_map.mp ht
  exact (getReadyPairs_mem.mp hkt).2.2.2

theorem getReadyTasks_id_not_completed {s : Sched} {t : Task}
    (hid : ∀ kt ∈ s.tasks, (Prod.snd kt).id = kt.1) (ht : t ∈ getReadyTasks s) :
    t.id ∉ s.completed := by
  obtain ⟨⟨k, t'⟩, hkt, rfl⟩ := List.mem_map.mp ht
  have hmem := (getReadyPairs_mem.mp hkt).1
  have := hid (k, t') hmem
  simp only at this
  rw [this]
  exact (getReadyPairs_mem.mp hkt).2.1

theorem getReadyTasks_id_not_in_progress {s : Sched} {t : Task}
    (hid : ∀ kt ∈ s.tasks, (Prod.snd kt).id = kt.1) (ht : t ∈ getReadyTasks s) :
    t.id ∉ s.in_progress.map Prod.fst := by
  obtain ⟨⟨k, t'⟩, hkt, rfl⟩ := List.mem_map.mp ht
  have hmem := (getReadyPairs_mem.mp hkt).1
  have := hid (k, t') hmem
  simp only at this
  rw [this]
  exact (getReadyPairs_mem.mp hkt).2.2.1

theorem stepSelected_mem {s : Sched} {t : Task} (ht : t ∈ stepSelected s) :
    t ∈ getReadyTasks (drainState s) := by
  rw [stepSelected] at ht
  obtain ⟨i, _, hlt, rfl⟩ := knapsackSel_mem ht
  rw [List.getD_eq_getElem _ _ hlt]
  exact List.getElem_mem hlt

theorem drainState_tasks (s : Sched) : (drainState s).tasks = s.tasks := rfl

theorem drainState_total (s : Sched) : (drainState s).total_workers = s.total_workers := rfl

theorem drainState_time (s : Sched) : (drainState s).time = s.time := rfl

theorem drainState_schedule (s : Sched) : (drainState s).schedule = s.schedule := rfl

theorem drainState_completed_subset (s : Sched) :
    s.completed ⊆ (drainState s).completed := by
  intro a ha
  exact Finset.mem_union_left _ ha

theorem commitAll_tasks (time : Nat) (sel : List Task) :
    ∀ s : Sched, (commitAll time s sel).tasks = s.tasks := by
  induction sel with
  | nil => intro s; rfl
  | cons t rest ih => intro s; exact ih (commitOne time s t)

theorem commitAll_completed (time : Nat) (sel : List Task) :
    ∀ s : Sched, (commitAll time s sel).completed = s.completed := by
  induction sel with
  | nil => intro s; rfl
  | cons t rest ih => intro s; exact ih (commitOne time s t)

theorem commitAll_schedule (time : Nat) (sel : List Task) :
    ∀ s : Sched, (commitAll time s sel).schedule = s.schedule := by
  induction sel with
  | nil => intro s; rfl
  | cons t rest ih => intro s; exact ih (commitOne time s t)

theorem commitAll_total (time : Nat) (sel : List Task) :
    ∀ s : Sched, (commitAll time s sel).total_workers = s.total_workers := by
  induction sel with
  | nil => intro s; rfl
  | cons t rest ih => intro s; exact ih (commitOne time s t)

theorem commitAll_task_end_times (time : Nat) (sel : List Task) :
    ∀ s : Sched, (commitAll time s sel).task_end_times = s.task_end_times := by
  induction sel with
  | nil => intro s; rfl
  | cons t rest ih => intro s; exact ih (commitOne time s t)

theorem stepCommitted_tasks (s : Sched) : (stepCommitted s).tasks = s.tasks := by
  rw [stepCommitted]
  exact commitAll_tasks _ _ _

theorem stepCommitted_completed (s : Sched) :
    (stepCommitted s).completed = (drainState s).completed := by
  rw [stepCommitted]
  exact commitAll_completed _ _ _

theorem usedCapacity_alSet (k : String) (e : Nat × Task) :
    ∀ ip : List (String × Nat × Task),
      ((alSet k e ip).map (fun x => x.2.2.workers_required)).sum ≤
        (ip.map (fun x => x.2.2.workers_required)).sum + e.2.workers_required := by
  intro ip
  induction ip with
  | nil => simp [alSet]
  | cons f rest ih =>
    obtain ⟨k', v'⟩ := f
    rw [alSet]
    by_cases hk : k' = k
    · rw [if_pos hk]
      simp only [List.map_cons, List.sum_cons]
      omega
    · rw [if_neg hk]
      simp only [List.map_cons, List.sum_cons]
      omega

theorem usedCapacity_commitOne (time : Nat) (s : Sched) (t : Task) :
    usedCapacity (commitOne time s t) ≤ usedCapacity s + t.workers_required := by
  rw [commitOne, usedCapacity, usedCapacity]
  exact usedCapacity_alSet t.id (time + t.duration, t) s.in_progress

theorem usedCapacity_commitAll (time : Nat) (sel : List Task) :
    ∀ s : Sched, usedCapacity (commitAll time s sel) ≤
      usedCapacity s + (sel.map Task.workers_required).sum := by
  induction sel with
  | nil => intro s; simp [commitAll]
  | cons t rest ih =>
    intro s
    rw [commitAll, List.foldl_cons]
    have h1 := ih (commitOne time s t)
    have h2 := usedCapacity_commitOne time s t
    rw [commitAll] at h1
    simp only [List.map_cons, List.sum_cons]
    omega

theorem stepSelected_weight_le (s : Sched) :
    ((stepSelected s).map Task.workers_required).sum ≤
      (drainState s).total_workers - usedCapacity (drainState s) := by
  rw [stepSelected, knapsackSel_sum]
  exact knapsackIdx_weight_le _ _

theorem usedCapacity_stepCommitted (s : Sched)
    (hv : usedCapacity (drainState s) ≤ (drainState s).total_workers) :
    usedCapacity (stepCommitted s) ≤ s.total_workers := by
  have h1 : usedCapacity (stepCommitted s) =
      usedCapacity (commitAll s.time (drainState s) (stepSelected s)) := rfl
  have h2 := usedCapacity_commitAll s.time (stepSelected s) (drainState s)
  have h3 := stepSelected_weight_le s
  have h4 : (drainState s).total_workers = s.total_workers := rfl
  omega

/-! ### Claims -/

/-- C1: for every candidate list (positive `workers_required`) and capacity,
the knapsack returns candidates whose summed `workers_required` is at most
the capacity and whose summed raw priority is maximal among all index
subsets meeting the capacity bound; concretely, with X(workers 2,
priority 5), Y(workers 2, priority 3) and capacity 2 it selects exactly X. -/
theorem knapsack_selects_optimal_subset (ts : List Task) (cap : Nat)
    (_hpos : ∀ t ∈ ts, 0 < t.workers_required) :
    ((∀ t ∈ knapsackSel ts cap, t ∈ ts) ∧
     ((knapsackSel ts cap).map Task.workers_required).sum ≤ cap ∧
     ∀ S : Finset Nat, S ⊆ Finset.range ts.length → S.sum (wOf ts) ≤ cap →
       S.sum (pOf ts) ≤ ((knapsackSel ts cap).map Task.priority).sum) ∧
    (knapsackSel [taskX, taskY] 2).map Task.id = ["X"] := by
  refine ⟨⟨?_, ?_, ?_⟩, by decide⟩
  · intro t ht
    obtain ⟨i, _, hlt, rfl⟩ := knapsackSel_mem ht
    rw [List.getD_eq_getElem _ _ hlt]
    exact List.getElem_mem hlt
  · rw [knapsackSel_sum]
    exact knapsackIdx_weight_le ts cap
  · intro S hS hw
    rw [knapsackSel_sum]
    exact knapsackIdx_optimal ts cap S hS hw

theorem knapsack_selects_optimal_subset_witness :
    (∀ t ∈ [taskX, taskY], 0 < t.workers_required) ∧
    ({1} : Finset Nat).sum (pOf [taskX, taskY]) ≤
      ((knapsackSel [taskX, taskY] 2).map Task.priority).sum :=
  ⟨by decide,
   (knapsack_selects_optimal_subset [taskX, taskY] 2 (by decide)).1.2.2 {1}
     (by decide) (by decide)⟩

/-- C9: the best-value array of the knapsack DP is monotone non-decreasing
on capacities up to `cap`, the value at the argmax index equals
`dp[capacity]`, and the summed priority of the returned selection equals
`dp[capacity]`. -/
theorem knapsack_dp_monotone_argmax (ts : List Task) (cap : Nat) :
    (∀ w1 w2 : Nat, w1 ≤ w2 → w2 ≤ cap →
        (knapDP ts cap).1 w1 ≤ (knapDP ts cap).1 w2) ∧
    (knapDP ts cap).1 (bestW ts cap) = (knapDP ts cap).1 cap ∧
    ((knapsackSel ts cap).map Task.priority).sum = (knapDP ts cap).1 cap := by
  refine ⟨fun w1 w2 h12 h2 => knapDP_monotone ts cap h12 h2,
    dp_bestW_eq_dp_avail ts cap, ?_⟩
  rw [knapsackSel_sum]
  show (knapsackIdx ts cap).sum (pOf ts) = (knapDP ts cap).1 cap
  rw [knapsackIdx_value_eq, dp_bestW_eq_dp_avail]

theorem knapsack_dp_monotone_argmax_witness :
    (knapDP [taskX, taskY] 2).1 0 ≤ (knapDP [taskX, taskY] 2).1 2 :=
  (knapsack_dp_monotone_argmax [taskX, taskY] 2).1 0 2 (by decide) (by decide)

/-- C3: `get_ready_tasks` returns exactly the registry entries whose key is
not completed, not in progress, and all of whose dependencies are
completed; consequently every task the step selects for starting has all
its dependencies in the completed set of the drained state, i.e. at the
instant it is started. -/
theorem ready_iff_and_started_deps_completed :
    (∀ (s : Sched) (k : String) (t : Task),
        (k, t) ∈ getReadyPairs s ↔
          (k, t) ∈ s.tasks ∧ k ∉ s.completed ∧ k ∉ s.in_progress.map Prod.fst ∧
            ∀ d ∈ t.dependencies, d ∈ s.completed) ∧
    (∀ (s : Sched), ∀ t ∈ stepSelected s, ∀ d ∈ t.dependencies,
        d ∈ (drainState s).completed) :=
  ⟨fun _ _ _ => getReadyPairs_mem,
   fun _ _ ht => getReadyTasks_deps (stepSelected_mem ht)⟩

theorem ready_iff_and_started_deps_completed_witness :
    ("A", (⟨"A", 2, [], 1, 1, none⟩ : Task)) ∈
      getReadyPairs (initSched [⟨"A", 2, [], 1, 1, none⟩] 1) :=
  (ready_iff_and_started_deps_completed.1 (initSched [⟨"A", 2, [], 1, 1, none⟩] 1)
    "A" ⟨"A", 2, [], 1, 1, none⟩).mpr ⟨by decide, by decide, by decide, by decide⟩

/-- C8: a completed task with a deadline is classified Met exactly when its
recorded finish time is at most the deadline and Missed otherwise, and no
classification is made without a deadline; concretely a task of duration 3
started at time 2 gets finish event and recorded end time 5, classified
Missed against deadline 4 and Met against deadline 5. -/
theorem deadline_met_missed_classification :
    (∀ e d : Nat, deadlineStatus e (some d) = some "Met" ↔ e ≤ d) ∧
    (∀ e d : Nat, deadlineStatus e (some d) = some "Missed" ↔ d < e) ∧
    (∀ e : Nat, deadlineStatus e none = none) ∧
    (stepFn deadlineStart).1.events = [(5, "A")] ∧
    (run deadlineStart [Op.step, Op.step, Op.step, Op.step]).task_end_times.lookup "A" =
      some 5 ∧
    deadlineStatus 5 (some 4) = some "Missed" ∧
    deadlineStatus 5 (some 5) = some "Met" := by
  refine ⟨?_, ?_, fun e => rfl, by decide, by decide, by decide, by decide⟩
  · intro e d
    by_cases h : e ≤ d
    · rw [show deadlineStatus e (some d) = some (if e ≤ d then "Met" else "Missed") from rfl,
        if_pos h]
      exact ⟨fun _ => h, fun _ => rfl⟩
    · rw [show deadlineStatus e (some d) = some (if e ≤ d then "Met" else "Missed") from rfl,
        if_neg h]
      exact ⟨fun hh => absurd (Option.some.inj hh) (by decide), fun hh => absurd hh h⟩
  · intro e d
    by_cases h : e ≤ d
    · rw [show deadlineStatus e (some d) = some (if e ≤ d then "Met" else "Missed") from rfl,
        if_pos h]
      exact ⟨fun hh => absurd (Option.some.inj hh) (by decide), fun hh => by omega⟩
    · rw [show deadlineStatus e (some d) = some (if e ≤ d then "Met" else "Missed") from rfl,
        if_neg h]
      exact ⟨fun _ => by omega, fun _ => rfl⟩

theorem deadline_met_missed_classification_witness :
    deadlineStatus 3 (some 4) = some "Met" :=
  (deadline_met_missed_classification.1 3 4).mpr (by decide)

/-- C2 counterexample: from a reachable state (modify the in-progress task
A's `workers_required` from 1 to 3 under total capacity 3 with B's 2
workers also committed), the next `step()` call raises (the knapsack's
`max` over an empty range) and after the call the in-progress workers sum
to 5 > 3. -/
theorem step_capacity_counterexample :
    (stepFn overCommitState).2 = StepResult.valueError ∧
    (stepFn overCommitState).1.total_workers < usedCapacity (stepFn overCommitState).1 := by
  decide

/-- C2 (amended): after every call to `step()` that performs its scheduling
(neither the Terminal early-return nor the packer crash on negative free
capacity), the summed `workers_required` over in-progress tasks is at most
`total_workers`. -/
theorem step_respects_capacity (s s' : Sched) (r : StepResult)
    (h : stepFn s = (s', r)) (h1 : r ≠ StepResult.terminal)
    (h2 : r ≠ StepResult.valueError) :
    usedCapacity s' ≤ s.total_workers := by
  rw [stepFn] at h
  by_cases hc : s.completed.card = s.tasks.length
  · rw [if_pos hc] at h
    injection h with h3 h4
    exact absurd h4.symm h1
  · rw [if_neg hc] at h
    by_cases hv : (drainState s).total_workers < usedCapacity (drainState s)
    · rw [if_pos hv] at h
      injection h with h3 h4
      exact absurd h4.symm h2
    · rw [if_neg hv] at h
      push_neg at hv
      cases hfind : (justCompleted s).find?
          (fun tid => decide (tid ∉ s.tasks.map Prod.fst)) with
      | some tid =>
        rw [hfind] at h
        injection h with h3 _
        rw [← h3]
        exact usedCapacity_stepCommitted s hv
      | none =>
        rw [hfind] at h
        injection h with h3 _
        rw [← h3]
        exact usedCapacity_stepCommitted s hv

theorem step_respects_capacity_witness :
    usedCapacity (stepFn (initSched [⟨"A", 2, [], 1, 1, none⟩] 1)).1 ≤
      (initSched [⟨"A", 2, [], 1, 1, none⟩] 1).total_workers :=
  step_respects_capacity _ _ _ rfl (by decide) (by decide)

/-- C4 counterexample: after A finished and was removed from the registry,
`step()` reports Terminal although the completed set `{A}` differs from the
registry id set `{B}` (B is not completed): the code compares the two
*cardinalities*, not the sets. -/
theorem terminal_despite_unequal_sets :
    (stepFn removedDoneState).2 = StepResult.terminal ∧
    "B" ∈ removedDoneState.tasks.map Prod.fst ∧
    "B" ∉ removedDoneState.completed := by
  decide

/-- C4 (amended): `step()` reports Terminal (and then changes nothing and
keeps reporting Terminal, not an error) exactly when the *cardinality* of
the completed set equals the number of registry entries — which coincides
with set equality whenever the completed ids all live in the registry. -/
theorem terminal_iff_card_eq (s : Sched) :
    ((stepFn s).2 = StepResult.terminal ↔ s.completed.card = s.tasks.length) ∧
    ((stepFn s).2 = StepResult.terminal →
      (stepFn s).1 = s ∧ stepFn ((stepFn s).1) = (s, StepResult.terminal)) := by
  by_cases hc : s.completed.card = s.tasks.length
  · have hstep : stepFn s = (s, StepResult.terminal) := by rw [stepFn, if_pos hc]
    rw [hstep]
    exact ⟨⟨fun _ => hc, fun _ => rfl⟩, fun _ => ⟨rfl, hstep⟩⟩
  · have hne : (stepFn s).2 ≠ StepResult.terminal := by
      rw [stepFn, if_neg hc]
      by_cases hv : (drainState s).total_workers < usedCapacity (drainState s)
      · rw [if_pos hv]
        intro hcontra
        exact StepResult.noConfusion hcontra
      · rw [if_neg hv]
        cases hfind : (justCompleted s).find?
            (fun tid => decide (tid ∉ s.tasks.map Prod.fst)) with
        | some tid =>
          intro hcontra
          exact StepResult.noConfusion hcontra
        | none =>
          intro hcontra
          exact StepResult.noConfusion hcontra
    exact ⟨⟨fun h => absurd h hne, fun h => absurd h hc⟩, fun h => absurd h hne⟩

theorem terminal_iff_card_eq_witness :
    (stepFn (initSched [] 0)).2 = StepResult.terminal :=
  (terminal_iff_card_eq (initSched [] 0)).1.mpr (by decide)

/-- C5: when the drain reaches the finish event of a task that was removed
from the registry while in progress, the bookkeeping does complete it (id
into `completed`, entry out of `in_progress`, end time recorded) — but the
deadline check then evaluates `self.tasks[tid]` and raises `KeyError`, so
`step()` fails (and the time advance never happens), contradicting the
specified no-failure semantics. -/
theorem step_keyerror_on_removed_task :
    (stepFn removedInProgressState).2 = StepResult.keyError "A" ∧
    "A" ∈ (stepFn removedInProgressState).1.completed ∧
    (stepFn removedInProgressState).1.in_progress = [] ∧
    (stepFn removedInProgressState).1.task_end_times.lookup "A" = some 2 ∧
    (stepFn removedInProgressState).1.time = removedInProgressState.time := by
  decide

/-- C6 counterexample: A is in progress with `workers_required` 1 and the
engine accounts 1 worker used; after an external modification of A's
`workers_required` to 3, the engine's accounting for the same in-flight
task reads 3 — committed tasks are *not* decoupled from registry mutation. -/
theorem inflight_accounting_mutates :
    usedCapacity inflightState = 1 ∧
    usedCapacity (applyOp inflightState (Op.modify "A" none (some 3) none none none)) = 3 := by
  decide

/-- C6 (amended): modifying a task's attributes (duration, workers,
priority, deadline, dependencies) never changes the already-scheduled
finish times — the timeline events, the `(id, finish_time)` image of the
in-progress table, the clock, the end-time record and the log are all
untouched — but the capacity accounting is not decoupled: it re-reads the
live `workers_required` of in-flight tasks (see the counterexample). -/
theorem modify_preserves_finish_times (s : Sched) (id : String)
    (d w p dl : Option Nat) (deps : Option (List String)) :
    (applyOp s (Op.modify id d w p dl deps)).events = s.events ∧
    (applyOp s (Op.modify id d w p dl deps)).in_progress.map (fun e => (e.1, e.2.1)) =
      s.in_progress.map (fun e => (e.1, e.2.1)) ∧
    (applyOp s (Op.modify id d w p dl deps)).time = s.time ∧
    (applyOp s (Op.modify id d w p dl deps)).task_end_times = s.task_end_times ∧
    (applyOp s (Op.modify id d w p dl deps)).schedule = s.schedule := by
  rw [applyOp]
  by_cases hc : (s.tasks.map Prod.fst).contains id
  · rw [if_pos hc]
    refine ⟨rfl, ?_, rfl, rfl, rfl⟩
    rw [List.map_map]
    refine List.map_congr_left ?_
    intro e _
    simp only [Function.comp]
    by_cases h2 : e.1 = id
    · rw [if_pos h2]
    · rw [if_neg h2]
  · rw [if_neg hc]
    exact ⟨rfl, rfl, rfl, rfl, rfl⟩

theorem step_completed_subset (s : Sched) : s.completed ⊆ (stepFn s).1.completed := by
  rw [stepFn]
  by_cases hc : s.completed.card = s.tasks.length
  · rw [if_pos hc]
  · rw [if_neg hc]
    by_cases hv : (drainState s).total_workers < usedCapacity (drainState s)
    · rw [if_pos hv]
      exact drainState_completed_subset s
    · rw [if_neg hv]
      cases hfind : (justCompleted s).find?
          (fun tid => decide (tid ∉ s.tasks.map Prod.fst)) with
      | some tid =>
        show s.completed ⊆ (stepCommitted s).completed
        rw [stepCommitted_completed]
        exact drainState_completed_subset s
      | none =>
        show s.completed ⊆ (stepCommitted s).completed
        rw [stepCommitted_completed]
        exact drainState_completed_subset s

theorem applyOp_completed_subset (s : Sched) (op : Op) :
    s.completed ⊆ (applyOp s op).completed := by
  cases op with
  | step => exact step_completed_subset s
  | add t => exact Finset.Subset.refl _
  | modify id d w p dl deps =>
    rw [applyOp]
    by_cases hc : (s.tasks.map Prod.fst).contains id
    · rw [if_pos hc]
    · rw [if_neg hc]
  | del id => exact Finset.Subset.refl _

/-- C10: the completed set never shrinks under any operation; task removal
touches only the registry; once an id is completed, no registry entry under
that id is ever ready again and no task with that id is ever selected for
starting; concretely, after A completed, was removed and a fresh task was
re-added under id A, the ready set is empty and the next `step()` reports
Terminal. -/
theorem completed_never_shrinks :
    (∀ (s : Sched) (op : Op), s.completed ⊆ (applyOp s op).completed) ∧
    (∀ (s : Sched) (id : String),
        (applyOp s (Op.del id)).completed = s.completed ∧
        (applyOp s (Op.del id)).in_progress = s.in_progress ∧
        (applyOp s (Op.del id)).schedule = s.schedule ∧
        (applyOp s (Op.del id)).task_end_times = s.task_end_times) ∧
    (∀ (s : Sched) (id : String), id ∈ s.completed →
        ∀ kt ∈ getReadyPairs s, kt.1 ≠ id) ∧
    (∀ (s : Sched) (id : String), (∀ kt ∈ s.tasks, (Prod.snd kt).id = kt.1) →
        id ∈ s.completed → ∀ t ∈ stepSelected s, t.id ≠ id) ∧
    ((stepFn readdState).2 = StepResult.terminal ∧ "A" ∈ readdState.completed ∧
      getReadyPairs readdState = []) := by
  refine ⟨applyOp_completed_subset, fun s id => ⟨rfl, rfl, rfl, rfl⟩, ?_, ?_, by decide⟩
  · intro s id hidc kt hkt heq
    obtain ⟨k, t⟩ := kt
    have := (getReadyPairs_mem.mp hkt).2.1
    simp only at heq
    exact this (heq ▸ hidc)
  · intro s id hkeys hc t ht heq
    have h1 : t ∈ getReadyTasks (drainState s) := stepSelected_mem ht
    have hkeys' : ∀ kt ∈ (drainState s).tasks, (Prod.snd kt).id = kt.1 := by
      rw [drainState_tasks]
      exact hkeys
    have h2 : t.id ∉ (drainState s).completed :=
      getReadyTasks_id_not_completed hkeys' h1
    have h3 : id ∈ (drainState s).completed := drainState_completed_subset s hc
    exact h2 (heq ▸ h3)

theorem completed_never_shrinks_witness :
    "A" ∈ (applyOp readdState Op.step).completed :=
  completed_never_shrinks.1 readdState Op.step (by decide)

theorem alSet_mem_fst {β : Type} (k : String) (v : β) :
    ∀ (l : List (String × β)) (a : String),
      a ∈ (alSet k v l).map Prod.fst ↔ a = k ∨ a ∈ l.map Prod.fst := by
  intro l
  induction l with
  | nil => intro a; simp [alSet]
  | cons f rest ih =>
    intro a
    obtain ⟨k', v'⟩ := f
    rw [alSet]
    by_cases hk : k' = k
    · rw [if_pos hk]
      subst hk
      simp only [List.map_cons, List.mem_cons]
      tauto
    · rw [if_neg hk]
      simp only [List.map_cons, List.mem_cons, ih]
      tauto

theorem alSet_fst_nodup {β : Type} (k : String) (v : β) :
    ∀ l : List (String × β), (l.map Prod.fst).Nodup →
      ((alSet k v l).map Prod.fst).Nodup := by
  intro l
  induction l with
  | nil => intro _; simp [alSet]
  | cons f rest ih =>
    intro hnd
    obtain ⟨k', v'⟩ := f
    rw [List.map_cons, List.nodup_cons] at hnd
    rw [alSet]
    by_cases hk : k' = k
    · rw [if_pos hk]
      subst hk
      rw [List.map_cons, List.nodup_cons]
      exact hnd
    · rw [if_neg hk]
      rw [List.map_cons, List.nodup_cons]
      refine ⟨?_, ih hnd.2⟩
      intro hmem
      rcases (alSet_mem_fst k v rest k').mp hmem with h | h
      · exact hk h
      · exact hnd.1 h

theorem alSet_mem {β : Type} (k : String) (v : β) :
    ∀ (l : List (String × β)) (kt : String × β),
      kt ∈ alSet k v l → kt = (k, v) ∨ kt ∈ l := by
  intro l
  induction l with
  | nil => intro kt h; simp [alSet] at h; exact Or.inl h
  | cons f rest ih =>
    intro kt h
    obtain ⟨k', v'⟩ := f
    rw [alSet] at h
    by_cases hk : k' = k
    · rw [if_pos hk] at h
      rcases List.mem_cons.mp h with h | h
      · exact Or.inl h
      · exact Or.inr (List.mem_cons_of_mem _ h)
    · rw [if_neg hk] at h
      rcases List.mem_cons.mp h with h | h
      · exact Or.inr (h ▸ List.mem_cons_self _ _)
      · rcases ih kt h with h | h
        · exact Or.inl h
        · exact Or.inr (List.mem_cons_of_mem _ h)

theorem ipKeys_commitOne (time : Nat) (s : Sched) (t : Task) (a : String) :
    a ∈ ipKeys (commitOne time s t) ↔ a = t.id ∨ a ∈ ipKeys s :=
  alSet_mem_fst t.id (time + t.duration, t) s.in_progress a

theorem ipKeys_commitAll_superset (time : Nat) (sel : List Task) :
    ∀ (s : Sched) (a : String), a ∈ ipKeys s → a ∈ ipKeys (commitAll time s sel) := by
  induction sel with
  | nil => intro s a ha; exact ha
  | cons t rest ih =>
    intro s a ha
    rw [commitAll, List.foldl_cons]
    exact ih (commitOne time s t) a ((ipKeys_commitOne time s t a).mpr (Or.inr ha))

theorem ipKeys_commitAll_of_mem (time : Nat) (sel : List Task) :
    ∀ (s : Sched) (t : Task), t ∈ sel → t.id ∈ ipKeys (commitAll time s sel) := by
  induction sel with
  | nil => intro s t ht; simp at ht
  | cons u rest ih =>
    intro s t ht
    rw [commitAll, List.foldl_cons]
    rcases List.mem_cons.mp ht with rfl | ht
    · exact ipKeys_commitAll_superset time rest (commitOne time s t) t.id
        ((ipKeys_commitOne time s t t.id).mpr (Or.inl rfl))
    · exact ih (commitOne time s u) t ht

theorem drain_completed_or_ip {s : Sched} {id : String}
    (h : id ∈ s.completed ∨ id ∈ ipKeys s) :
    id ∈ (drainState s).completed ∨ id ∈ ipKeys (drainState s) := by
  rcases h with h | h
  · exact Or.inl (drainState_completed_subset s h)
  · by_cases hjc : id ∈ justCompleted s
    · refine Or.inl ?_
      exact Finset.mem_union_right _ (List.mem_toFinset.mpr hjc)
    · refine Or.inr ?_
      obtain ⟨e, he, hfst⟩ := List.mem_map.mp h
      refine List.mem_map.mpr ⟨e, ?_, hfst⟩
      refine List.mem_filter.mpr ⟨he, ?_⟩
      rw [decide_eq_true_eq, hfst]
      exact hjc

theorem getReady_ids_nodup {s : Sched} (h1 : (s.tasks.map Prod.fst).Nodup)
    (h2 : ∀ kt ∈ s.tasks, (Prod.snd kt).id = kt.1) :
    ((getReadyTasks s).map Task.id).Nodup := by
  rw [getReadyTasks, List.map_map]
  have heq : (getReadyPairs s).map (Task.id ∘ Prod.snd) =
      (getReadyPairs s).map Prod.fst := by
    refine List.map_congr_left ?_
    intro kt hkt
    have hmem : kt ∈ s.tasks := List.filter_subset' s.tasks hkt
    exact h2 kt hmem
  rw [heq]
  exact h1.sublist (List.Sublist.map Prod.fst (List.filter_sublist s.tasks))

theorem knapsackSel_ids_nodup {ts : List Task} {avail : Nat}
    (h : (ts.map Task.id).Nodup) : ((knapsackSel ts avail).map Task.id).Nodup := by
  rw [knapsackSel, List.map_map]
  have hnd : ((List.range ts.length).filter
      (fun i => decide (i ∈ knapsackIdx ts avail))).Nodup :=
    List.Nodup.filter _ (List.nodup_range ts.length)
  refine hnd.map_on ?_
  intro i hi j hj hij
  have hilt : i < ts.length := List.mem_range.mp (List.mem_filter.mp hi).1
  have hjlt : j < ts.length := List.mem_range.mp (List.mem_filter.mp hj).1
  have hilt' : i < (ts.map Task.id).length := by
    rw [List.length_map]; exact hilt
  have hjlt' : j < (ts.map Task.id).length := by
    rw [List.length_map]; exact hjlt
  have : (ts.map Task.id)[i] = (ts.map Task.id)[j] := by
    rw [List.getElem_map, List.getElem_map]
    simp only [Function.comp] at hij
    rw [← List.getD_eq_getElem ts defaultTask hilt, ← List.getD_eq_getElem ts defaultTask hjlt]
    exact hij
  exact (h.getElem_inj_iff).mp this

theorem stepSelected_ids_nodup {s : Sched} (h1 : (s.tasks.map Prod.fst).Nodup)
    (h2 : ∀ kt ∈ s.tasks, (Prod.snd kt).id = kt.1) :
    ((stepSelected s).map Task.id).Nodup := by
  rw [stepSelected]
  refine knapsackSel_ids_nodup (getReady_ids_nodup ?_ ?_)
  · rw [drainState_tasks]; exact h1
  · rw [drainState_tasks]; exact h2

theorem startedLog_stepCommitted (s : Sched) :
    startedLog (stepCommitted s) = startedLog s ++ (stepSelected s).map Task.id := by
  have hsched : (stepCommitted s).schedule =
      s.schedule ++ [(s.time, (stepSelected s).map Task.id, justCompleted s)] := by
    rw [stepCommitted]
    have := commitAll_schedule s.time (stepSelected s) (drainState s)
    rw [this, drainState_schedule]
  rw [startedLog, hsched, List.map_append, List.flatten_append]
  rw [startedLog]
  simp

theorem schedInv_step (s : Sched) (h : SchedInv s) : SchedInv (stepFn s).1 := by
  obtain ⟨h1, h2, h3, h4⟩ := h
  rw [stepFn]
  by_cases hc : s.completed.card = s.tasks.length
  · rw [if_pos hc]
    exact ⟨h1, h2, h3, h4⟩
  · rw [if_neg hc]
    by_cases hv : (drainState s).total_workers < usedCapacity (drainState s)
    · rw [if_pos hv]
      refine ⟨h1, h2, h3, ?_⟩
      intro id hid
      exact drain_completed_or_ip (h4 id hid)
    · rw [if_neg hv]
      have key : SchedInv (stepCommitted s) := by
        refine ⟨?_, ?_, ?_, ?_⟩
        · rw [stepCommitted_tasks]; exact h1
        · rw [stepCommitted_tasks]; exact h2
        · rw [startedLog_stepCommitted]
          refine List.Nodup.append h3 (stepSelected_ids_nodup h1 h2) ?_
          intro a ha hb
          obtain ⟨t, htsel, rfl⟩ := List.mem_map.mp hb
          have hready := stepSelected_mem htsel
          have hkeys' : ∀ kt ∈ (drainState s).tasks, (Prod.snd kt).id = kt.1 := by
            rw [drainState_tasks]; exact h2
          rcases drain_completed_or_ip (h4 _ ha) with hcm | hip
          · exact getReadyTasks_id_not_completed hkeys' hready hcm
          · exact getReadyTasks_id_not_in_progress hkeys' hready hip
        · intro id hid
          rw [startedLog_stepCommitted] at hid
          rcases List.mem_append.mp hid with hold | hnew
          · rcases drain_completed_or_ip (h4 id hold) with hcm | hip
            · left
              rw [stepCommitted_completed]
              exact hcm
            · right
              show id ∈ ipKeys (commitAll s.time (drainState s) (stepSelected s))
              exact ipKeys_commitAll_superset s.time (stepSelected s) (drainState s) id hip
          · obtain ⟨t, htsel, rfl⟩ := List.mem_map.mp hnew
            right
            show t.id ∈ ipKeys (commitAll s.time (drainState s) (stepSelected s))
            exact ipKeys_commitAll_of_mem s.time (stepSelected s) (drainState s) t htsel
      cases hfind : (justCompleted s).find?
          (fun tid => decide (tid ∉ s.tasks.map Prod.fst)) with
      | some tid => exact key
      | none => exact key

theorem schedInv_applyOp (s : Sched) (op : Op) (h : SchedInv s) :
    SchedInv (applyOp s op) := by
  obtain ⟨h1, h2, h3, h4⟩ := h
  cases op with
  | step => exact schedInv_step s ⟨h1, h2, h3, h4⟩
  | add t =>
    refine ⟨alSet_fst_nodup t.id t s.tasks h1, ?_, h3, h4⟩
    intro kt hkt
    rcases alSet_mem t.id t s.tasks kt hkt with rfl | hkt'
    · rfl
    · exact h2 kt hkt'
  | modify id d w p dl deps =>
    rw [applyOp]
    by_cases hc : (s.tasks.map Prod.fst).contains id
    · rw [if_pos hc]
      have hkeys : (s.tasks.map (fun kt =>
          if kt.1 = id then (kt.1, updTask kt.2 d w p dl deps) else kt)).map Prod.fst =
          s.tasks.map Prod.fst := by
        rw [List.map_map]
        refine List.map_congr_left ?_
        intro kt _
        simp only [Function.comp]
        by_cases hkt : kt.1 = id
        · rw [if_pos hkt]
        · rw [if_neg hkt]
      have hip : (s.in_progress.map (fun e =>
          if e.1 = id then (e.1, e.2.1, updTask e.2.2 d w p dl deps) else e)).map Prod.fst =
          s.in_progress.map Prod.fst := by
        rw [List.map_map]
        refine List.map_congr_left ?_
        intro e _
        simp only [Function.comp]
        by_cases he : e.1 = id
        · rw [if_pos he]
        · rw [if_neg he]
      refine ⟨?_, ?_, h3, ?_⟩
      · show ((s.tasks.map (fun kt =>
          if kt.1 = id then (kt.1, updTask kt.2 d w p dl deps) else kt)).map Prod.fst).Nodup
        rw [hkeys]
        exact h1
      · intro kt' hkt'
        obtain ⟨kt, hkt, rfl⟩ := List.mem_map.mp hkt'
        by_cases hkt1 : kt.1 = id
        · rw [if_pos hkt1]
          show (updTask kt.2 d w p dl deps).id = kt.1
          show kt.2.id = kt.1
          exact h2 kt hkt
        · rw [if_neg hkt1]
          exact h2 kt hkt
      · intro a ha
        rcases h4 a ha with hcm | hip'
        · exact Or.inl hcm
        · refine Or.inr ?_
          show a ∈ (s.in_progress.map (fun e =>
            if e.1 = id then (e.1, e.2.1, updTask e.2.2 d w p dl deps) else e)).map Prod.fst
          rw [hip]
          exact hip'
    · rw [if_neg hc]
      exact ⟨h1, h2, h3, h4⟩
  | del id =>
    refine ⟨?_, ?_, h3, h4⟩
    · exact h1.sublist (List.Sublist.map Prod.fst (List.filter_sublist s.tasks))
    · intro kt hkt
      exact h2 kt (List.filter_subset' s.tasks hkt)

theorem schedInv_init (ts : List Task) (tw : Nat) (hnd : (ts.map Task.id).Nodup) :
    SchedInv (initSched ts tw) := by
  refine ⟨?_, ?_, List.nodup_nil, ?_⟩
  · show ((ts.map (fun t => (t.id, t))).map Prod.fst).Nodup
    rw [List.map_map]
    exact hnd
  · intro kt hkt
    obtain ⟨t, _, rfl⟩ := List.mem_map.mp hkt
    rfl
  · intro id hid
    simp [startedLog, initSched] at hid

theorem schedInv_run (ops : List Op) :
    ∀ s : Sched, SchedInv s → SchedInv (run s ops) := by
  induction ops with
  | nil => intro s h; exact h
  | cons op rest ih =>
    intro s h
    rw [run, List.foldl_cons]
    exact ih (applyOp s op) (schedInv_applyOp s op h)

theorem count_le_one_of_flatten_nodup {α β : Type} [DecidableEq β]
    (f : α → List β) (a : β) :
    ∀ l : List α, ((l.map f).flatten).Nodup →
      (l.filter (fun x => decide (a ∈ f x))).length ≤ 1 := by
  intro l
  induction l with
  | nil => intro _; simp
  | cons x r ih =>
    intro h
    rw [List.map_cons, List.flatten_cons, List.nodup_append] at h
    obtain ⟨hx, hr, hdisj⟩ := h
    by_cases ha : a ∈ f x
    · rw [List.filter_cons_of_pos (by simpa)]
      have hempty : r.filter (fun y => decide (a ∈ f y)) = [] := by
        rw [List.filter_eq_nil_iff]
        intro y hy hay
        have : a ∈ (r.map f).flatten :=
          List.mem_flatten.mpr ⟨f y, List.mem_map_of_mem f hy, by simpa using hay⟩
        exact hdisj ha this
      rw [hempty]
      simp
    · rw [List.filter_cons_of_neg (by simpa)]
      exact ih hr

/-- C7: across every sequence of steps and interleaved registry mutations
from an initial load with distinct task ids, each task id appears in the
started-ids component of at most one record of the schedule log. -/
theorem no_task_started_twice (ts : List Task) (tw : Nat) (ops : List Op)
    (hnd : (ts.map Task.id).Nodup) (id : String) :
    ((run (initSched ts tw) ops).schedule.filter
      (fun r => decide (id ∈ r.2.1))).length ≤ 1 := by
  have hinv := schedInv_run ops _ (schedInv_init ts tw hnd)
  have h := hinv.2.2.1
  rw [startedLog] at h
  exact count_le_one_of_flatten_nodup
    (fun r : Nat × List String × List String => r.2.1) id _ h

theorem no_task_started_twice_witness :
    ((run (initSched [⟨"A", 2, [], 1, 1, none⟩] 1)
        [Op.step, Op.step, Op.step]).schedule.filter
      (fun r => decide ("A" ∈ r.2.1))).length ≤ 1 :=
  no_task_started_twice [⟨"A", 2, [], 1, 1, none⟩] 1 [Op.step, Op.step, Op.step]
    (by decide) "A"

end ProjectShare

